import Mathlib

/-!
Verification development for the layout/markup synthesis engine of
`src/ieee_md2docx.py`.

Strings are modelled as lists of characters.  Every regex-based rewrite of
the source is translated as an explicit left-to-right scanner, exactly
mirroring the `re.sub` semantics (leftmost match, greedy or non-greedy as
the pattern dictates, replacement text never rescanned by the same pass,
scan position advances by one character when no match starts at the
current position).  Each scanner carries a fuel argument; the public
wrapper passes the input length as fuel, which is always sufficient
because every recursive step consumes at least one input character.
-/

set_option maxRecDepth 10000

namespace Md2Docx

/-- Boolean prefix test on character lists. -/
def lstartsWith : List Char → List Char → Bool
  | [], _ => true
  | _ :: _, [] => false
  | p :: ps, c :: cs => p == c && lstartsWith ps cs

/-- ASCII letter, the character class `[a-zA-Z]` of the Python regexes. -/
def isAsciiAlpha (c : Char) : Bool :=
  (65 ≤ c.toNat && c.toNat ≤ 90) || (97 ≤ c.toNat && c.toNat ≤ 122)

/-- ASCII letter or digit, the class `[A-Za-z0-9]`. -/
def isAsciiAlnum (c : Char) : Bool :=
  isAsciiAlpha c || (48 ≤ c.toNat && c.toNat ≤ 57)

/-- ASCII decimal digit, the class `\d` restricted to ASCII inputs. -/
def isAsciiDigit (c : Char) : Bool :=
  48 ≤ c.toNat && c.toNat ≤ 57

/-- The whitespace class `\s` of Python 3 `str` patterns (Unicode aware). -/
def isPySpace (c : Char) : Bool :=
  c == ' ' || c == '\t' || c == '\n' || c == '\r' ||
  c == Char.ofNat 0x0B || c == Char.ofNat 0x0C ||
  c == Char.ofNat 0x1C || c == Char.ofNat 0x1D ||
  c == Char.ofNat 0x1E || c == Char.ofNat 0x1F ||
  c == Char.ofNat 0x85 || c == Char.ofNat 0xA0 ||
  c == Char.ofNat 0x1680 ||
  (0x2000 ≤ c.toNat && c.toNat ≤ 0x200A) ||
  c == Char.ofNat 0x2028 || c == Char.ofNat 0x2029 ||
  c == Char.ofNat 0x202F || c == Char.ofNat 0x205F ||
  c == Char.ofNat 0x3000

/-- The non-breaking space `NBSP` of the source. -/
def NBSP : Char := Char.ofNat 0xA0

/-- The `LATEX_GLYPHS` table, in the source's literal (dict insertion)
order.  Keys and values are exactly those of `src/ieee_md2docx.py`. -/
def LATEX_GLYPHS : List (List Char × List Char) :=
  [ ("\\alpha".data, "\u03B1".data), ("\\beta".data, "\u03B2".data),
    ("\\gamma".data, "\u03B3".data), ("\\delta".data, "\u03B4".data),
    ("\\epsilon".data, "\u03B5".data), ("\\varepsilon".data, "\u03B5".data),
    ("\\zeta".data, "\u03B6".data), ("\\eta".data, "\u03B7".data),
    ("\\theta".data, "\u03B8".data), ("\\iota".data, "\u03B9".data),
    ("\\kappa".data, "\u03BA".data), ("\\lambda".data, "\u03BB".data),
    ("\\mu".data, "\u03BC".data), ("\\nu".data, "\u03BD".data),
    ("\\xi".data, "\u03BE".data), ("\\pi".data, "\u03C0".data),
    ("\\rho".data, "\u03C1".data), ("\\sigma".data, "\u03C3".data),
    ("\\tau".data, "\u03C4".data), ("\\upsilon".data, "\u03C5".data),
    ("\\phi".data, "\u03C6".data), ("\\varphi".data, "\u03C6".data),
    ("\\chi".data, "\u03C7".data), ("\\psi".data, "\u03C8".data),
    ("\\omega".data, "\u03C9".data),
    ("\\Gamma".data, "\u0393".data), ("\\Delta".data, "\u0394".data),
    ("\\Theta".data, "\u0398".data), ("\\Lambda".data, "\u039B".data),
    ("\\Xi".data, "\u039E".data), ("\\Pi".data, "\u03A0".data),
    ("\\Sigma".data, "\u03A3".data), ("\\Phi".data, "\u03A6".data),
    ("\\Psi".data, "\u03A8".data), ("\\Omega".data, "\u03A9".data),
    ("\\cdot".data, "\u00B7".data), ("\\times".data, "\u00D7".data),
    ("\\div".data, "\u00F7".data), ("\\pm".data, "\u00B1".data),
    ("\\mp".data, "\u2213".data), ("\\leq".data, "\u2264".data),
    ("\\geq".data, "\u2265".data), ("\\neq".data, "\u2260".data),
    ("\\approx".data, "\u2248".data), ("\\equiv".data, "\u2261".data),
    ("\\sim".data, "\u223C".data), ("\\propto".data, "\u221D".data),
    ("\\in".data, "\u2208".data), ("\\notin".data, "\u2209".data),
    ("\\subset".data, "\u2282".data), ("\\supset".data, "\u2283".data),
    ("\\cup".data, "\u222A".data), ("\\cap".data, "\u2229".data),
    ("\\emptyset".data, "\u2205".data), ("\\infty".data, "\u221E".data),
    ("\\partial".data, "\u2202".data), ("\\nabla".data, "\u2207".data),
    ("\\forall".data, "\u2200".data), ("\\exists".data, "\u2203".data),
    ("\\rightarrow".data, "\u2192".data), ("\\leftarrow".data, "\u2190".data),
    ("\\Rightarrow".data, "\u21D2".data), ("\\Leftarrow".data, "\u21D0".data),
    ("\\leftrightarrow".data, "\u2194".data),
    ("\\Leftrightarrow".data, "\u21D4".data),
    ("\\mapsto".data, "\u21A6".data),
    ("\\int".data, "\u222B".data), ("\\iint".data, "\u222C".data),
    ("\\iiint".data, "\u222D".data), ("\\oint".data, "\u222E".data),
    ("\\sum".data, "\u2211".data), ("\\prod".data, "\u220F".data),
    ("\\ldots".data, "\u2026".data), ("\\dots".data, "\u2026".data),
    ("\\cdots".data, "\u22EF".data), ("\\prime".data, "\u2032".data),
    ("\\neg".data, "\u00AC".data), ("\\wedge".data, "\u2227".data),
    ("\\vee".data, "\u2228".data), ("\\oplus".data, "\u2295".data),
    ("\\otimes".data, "\u2297".data), ("\\dagger".data, "\u2020".data),
    ("\\ddagger".data, "\u2021".data), ("\\ell".data, "\u2113".data),
    ("\\hbar".data, "\u210F".data), ("\\quad".data, "\u2003".data),
    ("\\qquad".data, "\u2003\u2003".data) ]

/-- The `LATEX_FUNCTIONS` names (without their backslash).  The Python
source stores them in a `set`, whose iteration order is unspecified; the
fixed order chosen here is the literal order of the source.  None of the
results proved below depends on this order. -/
def LATEX_FUNCTIONS : List (List Char) :=
  [ "tanh".data, "cosh".data, "sinh".data, "sin".data, "cos".data,
    "tan".data, "log".data, "ln".data, "exp".data, "lim".data,
    "max".data, "min".data, "sup".data, "inf".data, "det".data,
    "dim".data, "ker".data, "arg".data, "deg".data, "gcd".data,
    "hom".data, "sec".data, "csc".data, "cot".data,
    "arcsin".data, "arccos".data, "arctan".data ]

/-- The `_MATHBB` double-struck table as a character function; unmapped
characters pass through unchanged, mirroring `_MATHBB.get(char, char)`. -/
def mathbbChar (c : Char) : Char :=
  if c = 'A' then Char.ofNat 0x1D538 else if c = 'B' then Char.ofNat 0x1D539
  else if c = 'C' then Char.ofNat 0x2102 else if c = 'D' then Char.ofNat 0x1D53B
  else if c = 'E' then Char.ofNat 0x1D53C else if c = 'F' then Char.ofNat 0x1D53D
  else if c = 'G' then Char.ofNat 0x1D53E else if c = 'H' then Char.ofNat 0x210D
  else if c = 'I' then Char.ofNat 0x1D540 else if c = 'J' then Char.ofNat 0x1D541
  else if c = 'K' then Char.ofNat 0x1D542 else if c = 'L' then Char.ofNat 0x1D543
  else if c = 'M' then Char.ofNat 0x1D544 else if c = 'N' then Char.ofNat 0x2115
  else if c = 'O' then Char.ofNat 0x1D546 else if c = 'P' then Char.ofNat 0x2119
  else if c = 'Q' then Char.ofNat 0x211A else if c = 'R' then Char.ofNat 0x211D
  else if c = 'S' then Char.ofNat 0x1D54A else if c = 'T' then Char.ofNat 0x1D54B
  else if c = 'U' then Char.ofNat 0x1D54C else if c = 'V' then Char.ofNat 0x1D54D
  else if c = 'W' then Char.ofNat 0x1D54E else if c = 'X' then Char.ofNat 0x1D54F
  else if c = 'Y' then Char.ofNat 0x1D550 else if c = 'Z' then Char.ofNat 0x2124
  else c

/-- Step 0 of `resolve_latex` and of `_resolve_latex_commands`:
`re.sub(r'\\\\([a-zA-Z])', r'\\\1', text)` — a doubled backslash in front
of a letter is collapsed to a single backslash. -/
def normBSF : Nat → List Char → List Char
  | 0, l => l
  | _ + 1, [] => []
  | f + 1, c :: rest =>
    match rest with
    | d :: e :: r2 =>
      if c == '\\' && d == '\\' && isAsciiAlpha e then
        '\\' :: e :: normBSF f r2
      else
        c :: normBSF f rest
    | _ => c :: normBSF f rest

def normBS (l : List Char) : List Char := normBSF l.length l

/-- The pattern `\text{` of `re.sub(r'\\text\{([^}]*)\}', r'\1', text)`. -/
def textCmdPat : List Char := ['\\', 't', 'e', 'x', 't', '{']

/-- Rewrite of `\text{...}` wrappers to their literal interior. -/
def textCmdSubF : Nat → List Char → List Char
  | 0, l => l
  | _ + 1, [] => []
  | f + 1, c :: rest =>
    if lstartsWith textCmdPat (c :: rest) then
      let after := (c :: rest).drop 6
      let content := after.takeWhile (fun d => !(d == '}'))
      match after.dropWhile (fun d => !(d == '}')) with
      | '}' :: r2 => content ++ textCmdSubF f r2
      | _ => c :: textCmdSubF f rest
    else c :: textCmdSubF f rest

def textCmdSub (l : List Char) : List Char := textCmdSubF l.length l

/-- The pattern `\mathbb{` of `re.sub(r'\\mathbb\{([A-Z])\}', ..., text)`. -/
def mathbbPat : List Char := ['\\', 'm', 'a', 't', 'h', 'b', 'b', '{']

/-- Rewrite of `\mathbb{X}` (X a single ASCII capital) to the
double-struck character. -/
def mathbbSubF : Nat → List Char → List Char
  | 0, l => l
  | _ + 1, [] => []
  | f + 1, c :: rest =>
    if lstartsWith mathbbPat (c :: rest) then
      match (c :: rest).drop 8 with
      | x :: '}' :: r2 =>
        if 65 ≤ x.toNat && x.toNat ≤ 90 then
          mathbbChar x :: mathbbSubF f r2
        else c :: mathbbSubF f rest
      | _ => c :: mathbbSubF f rest
    else c :: mathbbSubF f rest

def mathbbSub (l : List Char) : List Char := mathbbSubF l.length l

/-- The pattern prefix `\frac{` of the fraction rule. -/
def fracPat : List Char := ['\\', 'f', 'r', 'a', 'c', '{']

/-- One argument of the fraction pattern: the greedy star
`(?:[^{}]|\{[^{}]*\})*` — a run of non-brace characters and one-level
brace groups.  Returns the matched text and the unconsumed suffix.  The
star is deterministic: its two alternatives cannot overlap, so maximal
munch is exactly the regex semantics. -/
def fracBodyF : Nat → List Char → List Char × List Char
  | 0, l => ([], l)
  | _ + 1, [] => ([], [])
  | f + 1, c :: rest =>
    if c == '}' then ([], c :: rest)
    else if c == '{' then
      let g := rest.takeWhile (fun d => !(d == '{' || d == '}'))
      match rest.dropWhile (fun d => !(d == '{' || d == '}')) with
      | '}' :: r2 =>
        let p := fracBodyF f r2
        ('{' :: g ++ '}' :: p.1, p.2)
      | _ => ([], c :: rest)
    else
      let p := fracBodyF f rest
      (c :: p.1, p.2)

/-- The two brace-delimited arguments `{A}{B}` of `\frac{A}{B}` starting
right after `\frac{`; `none` when the pattern does not match here. -/
def fracArgs (l : List Char) : Option (List Char × List Char × List Char) :=
  let pa := fracBodyF l.length l
  match pa.2 with
  | '}' :: '{' :: r2 =>
    let pb := fracBodyF r2.length r2
    match pb.2 with
    | '}' :: r3 => some (pa.1, pb.1, r3)
    | _ => none
  | _ => none

/-- Rewrite of `\frac{A}{B}` to `(A)/(B)`; a single pass, so replacement
text (including any `\frac` captured inside `A` or `B`) is not rescanned,
exactly as `re.sub` behaves. -/
def fracSubF : Nat → List Char → List Char
  | 0, l => l
  | _ + 1, [] => []
  | f + 1, c :: rest =>
    if lstartsWith fracPat (c :: rest) then
      match fracArgs ((c :: rest).drop 6) with
      | some (a, b, r2) =>
        '(' :: a ++ ')' :: '/' :: '(' :: b ++ ')' :: fracSubF f r2
      | none => c :: fracSubF f rest
    else c :: fracSubF f rest

def fracSub (l : List Char) : List Char := fracSubF l.length l

/-- One function-name substitution
`re.sub(re.escape(func) + r'(?![a-zA-Z])', name, text)`: the command
`\name` is replaced by `name` unless an ASCII letter follows. -/
def funcSubF (nm : List Char) : Nat → List Char → List Char
  | 0, l => l
  | _ + 1, [] => []
  | f + 1, c :: rest =>
    if lstartsWith ('\\' :: nm) (c :: rest)
        && (match (c :: rest).drop (nm.length + 1) with
            | d :: _ => !isAsciiAlpha d
            | [] => true) then
      nm ++ funcSubF nm f ((c :: rest).drop (nm.length + 1))
    else c :: funcSubF nm f rest

def funcSub (nm : List Char) (l : List Char) : List Char := funcSubF nm l.length l

/-- The loop over `LATEX_FUNCTIONS`. -/
def funcsSub (l : List Char) : List Char :=
  LATEX_FUNCTIONS.foldl (fun acc nm => funcSub nm acc) l

/-- Plain `str.replace(pat, rep)`: leftmost, non-overlapping, replacement
not rescanned. -/
def replAllF (pat rep : List Char) : Nat → List Char → List Char
  | 0, l => l
  | _ + 1, [] => []
  | f + 1, c :: rest =>
    if lstartsWith pat (c :: rest) then
      rep ++ replAllF pat rep f ((c :: rest).drop pat.length)
    else c :: replAllF pat rep f rest

def replAll (pat rep l : List Char) : List Char := replAllF pat rep l.length l

/-- `sorted(LATEX_GLYPHS.keys(), key=len, reverse=True)`: Python's sort is
stable, so this is the insertion-order table grouped by decreasing key
length. -/
def sortedGlyphs : List (List Char × List Char) :=
  ((List.range 20).reverse).flatMap
    (fun n => LATEX_GLYPHS.filter (fun p => p.1.length == n))

/-- The glyph-substitution loop, longest command first. -/
def glyphsSub (l : List Char) : List Char :=
  sortedGlyphs.foldl (fun acc p => replAll p.1 p.2 acc) l

/-- The body of `_resolve_latex_commands`: normalize doubled backslashes,
drop `\text{}` wrappers, map `\mathbb{X}`, flatten `\frac`, substitute
function names, then glyphs. -/
def resolveLatexCommandsL (l : List Char) : List Char :=
  glyphsSub (funcsSub (fracSub (mathbbSub (textCmdSub (normBS l)))))

/-- Replace every ASCII space with `NBSP`, as
`inner.replace(" ", NBSP)` does. -/
def nbspify (l : List Char) : List Char :=
  l.map (fun c => if c = ' ' then NBSP else c)

/-- The replacement applied to the interior of an inline-math span:
resolve the commands, then protect the spaces. -/
def inlineMathRepl (l : List Char) : List Char :=
  nbspify (resolveLatexCommandsL l)

/-- Search for the closing delimiter of
`(?<!\$)\$(?!\$)(.+?)(?<!\$)\$(?!\$)` inside the span: the first `$`
with nonempty content so far, whose preceding character is not `$` and
whose following character is not `$`; `.` excludes the newline.  `acc`
holds the reversed content scanned so far. -/
def findCloseF : Nat → List Char → List Char → Option (List Char × List Char)
  | 0, _, _ => none
  | _ + 1, [], _ => none
  | f + 1, c :: rest, acc =>
    if c == '\n' then none
    else if c == '$' && !acc.isEmpty && !(acc.head? == some '$')
        && !(rest.head? == some '$') then
      some (acc.reverse, rest)
    else findCloseF f rest (c :: acc)

/-- The inline-math pass of `resolve_latex`.  `prev` is the character
just before the current scan position in the original text (for the
`(?<!\$)` lookbehind). -/
def inlineMathF : Nat → Option Char → List Char → List Char
  | 0, _, l => l
  | _ + 1, _, [] => []
  | f + 1, prev, c :: rest =>
    if c == '$' then
      if prev == some '$' then c :: inlineMathF f (some c) rest
      else if rest.head? == some '$' then c :: inlineMathF f (some c) rest
      else
        match findCloseF rest.length rest [] with
        | some (content, r2) => inlineMathRepl content ++ inlineMathF f (some '$') r2
        | none => c :: inlineMathF f (some c) rest
    else c :: inlineMathF f (some c) rest

def inlineMath (l : List Char) : List Char := inlineMathF l.length none l

/-- The whole of `resolve_latex`: normalize doubled backslashes, process
`$...$` spans, then resolve the remaining commands. -/
def resolve_latex (l : List Char) : List Char :=
  resolveLatexCommandsL (inlineMath (normBS l))

end Md2Docx

namespace Md2Docx

/-! Document model: runs, paragraphs and section descriptors, mirroring
`make_run`, `make_paragraph`, the two `inject_*` helpers and
`set_final_section_two_col`. -/

/-- The `FONT` constant. -/
def FONT : List Char := "Times New Roman".data

/-- A text run as configured by `make_run` (parameter order preserved). -/
structure TextRun where
  text : List Char
  size : Nat
  bold : Bool
  italic : Bool
  smallCaps : Bool
  subscript : Bool
  superscript : Bool
  font : List Char
deriving DecidableEq

/-- A run element of a paragraph: a text run, a bare tab run, or a bare
soft-line-break run (the ones built inline in `make_author_paragraph` and
the equation/bullet branches). -/
inductive RunE
  | textRun (r : TextRun)
  | tabRun
  | brRun (size : Nat)
deriving DecidableEq

/-- Construct a text run; arguments in `make_run`'s order. -/
def make_run (text : List Char) (size : Nat) (bold italic smallCaps sub sup : Bool) : RunE :=
  .textRun ⟨text, size, bold, italic, smallCaps, sub, sup, FONT⟩

/-- A paragraph descriptor, holding exactly the data `make_paragraph`
writes into the `w:pPr` element.  `indFirstLine` reflects the source's
guard: `w:firstLine` is set only when a first indent is given and no
hanging indent is. -/
structure Para where
  runs : List RunE
  jc : List Char
  spaceBefore : Nat
  spaceAfter : Nat
  indFirstLine : Option Nat
  indLeft : Option Nat
  indHanging : Option Nat
  keepNext : Bool
  lineSpacing : Option Nat
  lineRule : List Char
  tabStops : List (Nat × List Char)
deriving DecidableEq

/-- The `align_map` of `make_paragraph` (unknown input defaults to
justify = `both`). -/
def alignMap (a : List Char) : List Char :=
  if a = "justify".data then "both".data
  else if a = "center".data then "center".data
  else if a = "left".data then "start".data
  else if a = "right".data then "end".data
  else "both".data

/-- `make_paragraph`; all parameters explicit, in source order. -/
def make_paragraph (runs : List RunE) (align : List Char)
    (spaceBefore spaceAfter : Nat) (firstIndent leftIndent hanging : Option Nat)
    (keepNext : Bool) (lineSpacing : Option Nat) (lineRule : List Char)
    (tabStops : List (Nat × List Char)) : Para :=
  ⟨runs, alignMap align, spaceBefore, spaceAfter,
    (match firstIndent, hanging with
      | some v, none => some v
      | _, _ => none),
    leftIndent, hanging, keepNext, lineSpacing, lineRule, tabStops⟩

/-- A section descriptor (`w:sectPr`): break type, page geometry, column
count and gap, equal-width flag.  Every descriptor restates the full
geometry, as the source does. -/
structure SectPr where
  typeContinuous : Bool
  pgW : Nat
  pgH : Nat
  mTop : Nat
  mBot : Nat
  mLR : Nat
  cols : Nat
  colSpace : Nat
  equalWidth : Bool
deriving DecidableEq

/-- The descriptor `inject_section_break` builds for an author row:
continuous, `ncols` columns with the 216-twip author gap, equal width
when more than one column. -/
def mkRowSectPr (ncols : Nat) : SectPr :=
  ⟨true, 12240, 15840, 1080, 1440, 893, ncols, 216, decide (1 < ncols)⟩

/-- The descriptor `inject_continuous_two_col_section_break` builds and
places immediately before the abstract: despite that function's name it
carries a single column (`w:num = 1`), the 360-twip body gap, and no
`w:type` element. -/
def preAbstractSectPr : SectPr :=
  ⟨false, 12240, 15840, 1080, 1440, 893, 1, 360, false⟩

/-- The document-final descriptor rebuilt by `set_final_section_two_col`:
continuous, two equal columns with the 360-twip gap. -/
def finalSectPr : SectPr :=
  ⟨true, 12240, 15840, 1080, 1440, 893, 2, 360, true⟩

/-- A block-level element of the output body: an ordinary paragraph, a
zero-text paragraph carrying a section break, or the trailing
document-level `w:sectPr` (a direct child of `w:body`, not a paragraph). -/
inductive Elem
  | para (p : Para)
  | breakPara (s : SectPr)
  | finalSect (s : SectPr)
deriving DecidableEq

/-! The parsed-document data model consumed by `build_document`. -/

structure Author where
  name : List Char
  lines : List (List Char)
deriving DecidableEq

inductive ContentItem
  | text (s : List Char)
  | equation (s : List Char)
deriving DecidableEq

structure DocSection where
  level : Nat
  heading : List Char
  number : Nat
  content : List ContentItem
deriving DecidableEq

structure ParsedDoc where
  title : List Char
  authors : List Author
  abstract : List (List Char)
  keywords : List Char
  sections : List DocSection
  references : List (List Char)
deriving DecidableEq

/-! `strip_markdown`, `to_roman`, `to_letter` and decimal rendering. -/

/-- Non-greedy search for the closing delimiter of a `(.+?)` group:
first position with nonempty content where `cl` starts; `.` excludes the
newline.  `acc` is the reversed content so far. -/
def ngFindClose (cl : List Char) : Nat → List Char → List Char → Option (List Char × List Char)
  | 0, _, _ => none
  | _ + 1, [], _ => none
  | f + 1, c :: rest, acc =>
    if !acc.isEmpty && lstartsWith cl (c :: rest) then
      some (acc.reverse, (c :: rest).drop cl.length)
    else if c == '\n' then none
    else ngFindClose cl f rest (c :: acc)

/-- `re.sub(op + '(.+?)' + cl, content, text)` for literal delimiters:
one left-to-right pass, shortest content, replacement not rescanned. -/
def ngSubF (op cl : List Char) : Nat → List Char → List Char
  | 0, l => l
  | _ + 1, [] => []
  | f + 1, c :: rest =>
    if lstartsWith op (c :: rest) then
      match ngFindClose cl ((c :: rest).drop op.length).length ((c :: rest).drop op.length) [] with
      | some (content, r2) => content ++ ngSubF op cl f r2
      | none => c :: ngSubF op cl f rest
    else c :: ngSubF op cl f rest

def ngSub (op cl l : List Char) : List Char := ngSubF op cl l.length l

/-- `strip_markdown`: remove `**bold**`, then `*italic*`, then backtick
code markers. -/
def strip_markdown (l : List Char) : List Char :=
  ngSub [Char.ofNat 96] [Char.ofNat 96] (ngSub ['*'] ['*'] (ngSub ['*', '*'] ['*', '*'] l))

/-- The value/letter table of `to_roman`. -/
def romanVals : List (Nat × List Char) :=
  [ (1000, "M".data), (900, "CM".data), (500, "D".data), (400, "CD".data),
    (100, "C".data), (90, "XC".data), (50, "L".data), (40, "XL".data),
    (10, "X".data), (9, "IX".data), (5, "V".data), (4, "IV".data), (1, "I".data) ]

/-- `to_roman`: each `while n >= v` loop appends its letters `n / v`
times and leaves remainder `n % v`. -/
def to_roman (n : Nat) : List Char :=
  (romanVals.foldl
    (fun st p => (st.1 ++ (List.replicate (st.2 / p.1) p.2).flatten, st.2 % p.1))
    ([], n)).1

/-- `to_letter`: `chr(64 + n)`, so 1 ↦ A, 2 ↦ B. -/
def to_letter (n : Nat) : Char := Char.ofNat (64 + n)

def digitChar (n : Nat) : Char := Char.ofNat (48 + n)

/-- Decimal rendering of a natural number, as Python `str` does. -/
def natToCharsF : Nat → Nat → List Char → List Char
  | 0, n, acc => digitChar n :: acc
  | f + 1, n, acc =>
    if n < 10 then digitChar n :: acc
    else natToCharsF f (n / 10) (digitChar (n % 10) :: acc)

def natToChars (n : Nat) : List Char := natToCharsF n n []

/-! `parse_math_text`: resolve LaTeX, then split on sub/superscript
notation `([_^])\{([^}]*)\}|([_^])([^\s{}_^])`. -/

/-- The base properties threaded through `parse_math_text`. -/
structure RProps where
  size : Nat
  bold : Bool
  italic : Bool
  font : List Char
deriving DecidableEq

/-- A run built from the base properties plus sub/superscript flags. -/
def mkTR (text : List Char) (p : RProps) (sub sup : Bool) : RunE :=
  .textRun ⟨text, p.size, p.bold, p.italic, false, sub, sup, p.font⟩

/-- Flush pending plain text (reversed) as a run; empty text is elided,
as the `if preceding:` guards do. -/
def pmtFlush (p : RProps) (pend : List Char) : List RunE :=
  if pend.isEmpty then [] else [mkTR pend.reverse p false false]

/-- The `finditer` scan of `parse_math_text`; `pend` is the reversed
plain text since the last match. -/
def pmtScanF (p : RProps) : Nat → List Char → List Char → List RunE
  | 0, l, pend => pmtFlush p (l.reverse ++ pend)
  | _ + 1, [], pend => pmtFlush p pend
  | f + 1, c :: rest, pend =>
    if c == '_' || c == '^' then
      match rest with
      | d :: r2 =>
        if d == '{' then
          match r2.dropWhile (fun e => !(e == '}')) with
          | e :: r3 =>
            if e == '}' then
              pmtFlush p pend
                ++ mkTR (r2.takeWhile (fun e => !(e == '}'))) p (c == '_') (!(c == '_'))
                :: pmtScanF p f r3 []
            else pmtScanF p f rest (c :: pend)
          | [] => pmtScanF p f rest (c :: pend)
        else if isPySpace d || d == '{' || d == '}' || d == '_' || d == '^' then
          pmtScanF p f rest (c :: pend)
        else
          pmtFlush p pend ++ mkTR [d] p (c == '_') (!(c == '_')) :: pmtScanF p f r2 []
      | [] => pmtScanF p f rest (c :: pend)
    else pmtScanF p f rest (c :: pend)

/-- `parse_math_text(text, **props)`: resolve LaTeX first, scan for
sub/superscripts, and fall back to one plain run when nothing was
emitted. -/
def parse_math_text (text : List Char) (p : RProps) : List RunE :=
  if (pmtScanF p (resolve_latex text).length (resolve_latex text) []).isEmpty then
    [mkTR (resolve_latex text) p false false]
  else pmtScanF p (resolve_latex text).length (resolve_latex text) []

end Md2Docx

namespace Md2Docx

/-! `build_document`: the single forward pass that emits the body
elements in final document order.  The two `inject_*` calls insert their
zero-text break paragraph immediately before the first paragraph of the
content they were called for, so the break elements appear at exactly
those positions in this list. -/

/-- `make_author_paragraph`: name run, then a soft break and an italic
run per affiliation line, centered, 40 twips after. -/
def make_author_paragraph (a : Author) : Para :=
  make_paragraph
    (make_run a.name 9 false false false false false
      :: a.lines.flatMap (fun ln => [RunE.brRun 9, make_run ln 9 false true false false false]))
    "center".data 0 40 none none none false (some 228) "auto".data []

/-- The author rows: `range(0, num_authors, max_cols_per_row)` slices,
with the fixed step chosen once as `min(num_authors, 4)`. -/
def chunksF : Nat → List Author → Nat → List (List Author)
  | 0, _, _ => []
  | _ + 1, [], _ => []
  | f + 1, l, k => l.take k :: chunksF f (l.drop k) k

def authorRows (l : List Author) (k : Nat) : List (List Author) :=
  chunksF l.length l k

/-- One author row: the injected N-column continuous break followed by
the row's author paragraphs. -/
def authorRowElems (row : List Author) : List Elem :=
  Elem.breakPara (mkRowSectPr row.length) :: row.map (fun a => .para (make_author_paragraph a))

/-- The author block of `build_document`: nothing for zero authors,
plain centered paragraphs for one author, and per-row column sections
for two or more. -/
def authorBlock (authors : List Author) : List Elem :=
  match authors with
  | [] => []
  | [a] =>
    Elem.para (make_paragraph [make_run a.name 11 false false false false false]
        "center".data 0 40 none none none false (some 228) "auto".data [])
      :: a.lines.map (fun ln =>
        Elem.para (make_paragraph [make_run ln 10 false true false false false]
          "center".data 0 40 none none none false (some 228) "auto".data []))
  | _ => (authorRows authors (min authors.length 4)).flatMap authorRowElems

/-- The em dash `chr(0x2014)`. -/
def EMDASH : Char := Char.ofNat 0x2014

/-- `" ".join(...)`. -/
def joinSpace : List (List Char) → List Char
  | [] => []
  | [x] => x
  | x :: rest => x ++ ' ' :: joinSpace rest

/-- The title paragraph: 24pt, centered, 120 twips after. -/
def titlePara (d : ParsedDoc) : Para :=
  make_paragraph [make_run d.title 24 false false false false false]
    "center".data 0 120 none none none false (some 228) "auto".data []

/-- The abstract paragraph: a bold-italic `Abstract` run, a bold (not
italic) em-dash run, then the math-split abstract text with bold base
weight; justified, first-line indent 272 twips. -/
def abstractPara (d : ParsedDoc) : Para :=
  make_paragraph
    (make_run "Abstract".data 9 true true false false false
      :: make_run [EMDASH] 9 true false false false false
      :: parse_math_text (strip_markdown (joinSpace d.abstract)) ⟨9, true, false, FONT⟩)
    "justify".data 360 200 (some 272) none none false (some 228) "auto".data []

/-- The keywords paragraph, emitted only when the keywords string is
nonempty. -/
def keywordsElems (d : ParsedDoc) : List Elem :=
  if d.keywords.isEmpty then []
  else
    [ .para (make_paragraph
        [ make_run ("Keywords".data ++ [EMDASH]) 9 true true false false false,
          make_run d.keywords 9 true true false false false ]
        "justify".data 0 120 (some 274) none none false (some 228) "auto".data []) ]

/-- The heading-prefix strip `re.sub(r"^[A-Za-z0-9]+\.\s*", "", heading)`:
a leading maximal alphanumeric token followed by a period (and any
whitespace) is removed; anything else is left unchanged. -/
def headingStrip (h : List Char) : List Char :=
  if !(h.takeWhile isAsciiAlnum).isEmpty
      && ((h.drop (h.takeWhile isAsciiAlnum).length).head? == some '.') then
    (h.drop ((h.takeWhile isAsciiAlnum).length + 1)).dropWhile isPySpace
  else h

/-- Heading paragraphs for a section: level 1 is small-caps centered with
a Roman-numeral prefix, level 2 italic left-aligned with a letter prefix;
any other level emits no heading. -/
def renderSectionHead (s : DocSection) : List Elem :=
  if s.level = 1 then
    [ .para (make_paragraph
        [make_run (to_roman s.number ++ '.' :: ' ' :: headingStrip s.heading) 10 false false true false false]
        "center".data 160 80 none none none true (some 228) "auto".data []) ]
  else if s.level = 2 then
    [ .para (make_paragraph
        [make_run (to_letter s.number :: '.' :: ' ' :: headingStrip s.heading) 10 false true false false false]
        "left".data 120 60 none none none true (some 228) "auto".data []) ]
  else []

/-- The equation paragraph's tab stops: centered at 2520, right at 5040. -/
def eqTabStops : List (Nat × List Char) :=
  [(2520, "center".data), (5040, "end".data)]

/-- The display-equation paragraph for equation number `k`: tab, the
math runs, tab, `"(k)"`. -/
def eqPara (k : Nat) (s : List Char) : Para :=
  make_paragraph
    (RunE.tabRun
      :: parse_math_text (nbspify (resolve_latex (strip_markdown s))) ⟨10, false, false, FONT⟩
      ++ [RunE.tabRun, make_run ('(' :: natToChars k ++ [')']) 10 false false false false false])
    "left".data 240 240 none none none false (some 228) "auto".data eqTabStops

/-- Match of `^(\d+)\.\s+\*\*(.+?)\*\*\s*(.*)` (ordered list with bold
label): digits, period, whitespace, bold label, optional whitespace,
rest of line. -/
def numListMatch (l : List Char) : Option (List Char × List Char × List Char) :=
  let num := l.takeWhile isAsciiDigit
  if num.isEmpty then none
  else
    match l.drop num.length with
    | '.' :: r1 =>
      let ws := r1.takeWhile isPySpace
      if ws.isEmpty then none
      else
        let r2 := r1.drop ws.length
        if lstartsWith ['*', '*'] r2 then
          match ngFindClose ['*', '*'] (r2.drop 2).length (r2.drop 2) [] with
          | some (label, r3) =>
            some (num, label, (r3.dropWhile isPySpace).takeWhile (fun c => !(c == '\n')))
          | none => none
        else none
    | _ => none

/-- Match of `^\*\*(.+?)\*\*\s*(.*)` (bold label paragraph). -/
def boldLabelMatch (l : List Char) : Option (List Char × List Char) :=
  if lstartsWith ['*', '*'] l then
    match ngFindClose ['*', '*'] (l.drop 2).length (l.drop 2) [] with
    | some (label, r3) =>
      some (label, (r3.dropWhile isPySpace).takeWhile (fun c => !(c == '\n')))
    | none => none
  else none

/-- Bullet classification `^[-*]\s`. -/
def bulletShape (l : List Char) : Bool :=
  match l with
  | c :: d :: _ => (c == '-' || c == '*') && isPySpace d
  | _ => false

/-- Bullet strip `re.sub(r"^[-*]\s+", "", text)`. -/
def bulletStrip (l : List Char) : List Char :=
  match l with
  | c :: rest =>
    if (c == '-' || c == '*') && (match rest.head? with | some d => isPySpace d | none => false) then
      rest.dropWhile isPySpace
    else l
  | [] => l

/-- The bullet and default branches, reached when neither the quote, the
ordered-list nor the (nonempty-rest) bold-label pattern applied. -/
def bulletOrDefault (t : List Char) : List Elem :=
  if bulletShape t then
    [ .para (make_paragraph
        (make_run ['•'] 10 false false false false false
          :: RunE.tabRun
          :: parse_math_text (strip_markdown (bulletStrip t)) ⟨10, false, false, FONT⟩)
        "justify".data 0 40 none (some 576) (some 288) false (some 228) "auto".data []) ]
  else
    if ((strip_markdown t).dropWhile isPySpace).isEmpty then []
    else
      [ .para (make_paragraph
          (parse_math_text (strip_markdown t) ⟨10, false, false, FONT⟩)
          "justify".data 0 120 (some 288) none none false (some 228) "auto".data []) ]

/-- Rendering of one plain-text content item, first matching rule wins:
blockquote, ordered list with bold label, bold label, bullet, default
(skipping lines that are empty after markup stripping). -/
def renderTextItem (t : List Char) : List Elem :=
  if lstartsWith ['>', ' '] t then
    [ .para (make_paragraph
        (parse_math_text (strip_markdown (t.drop 2)) ⟨10, false, true, FONT⟩)
        "justify".data 0 120 none (some 182880) none false (some 228) "auto".data []) ]
  else
    match numListMatch t with
    | some (num, label, rest) =>
      [ .para (make_paragraph
          [ make_run (num ++ '.' :: [' ']) 10 false false false false false,
            make_run (label ++ [' ']) 10 true false false false false,
            make_run (strip_markdown rest) 10 false false false false false ]
          "justify".data 0 120 none (some 228600) (some 228600) false (some 228) "auto".data []) ]
    | none =>
      match boldLabelMatch t with
      | some (label, rest) =>
        if !rest.isEmpty then
          [ .para (make_paragraph
              (make_run (label ++ [' ']) 10 true false false false false
                :: parse_math_text (strip_markdown rest) ⟨10, false, false, FONT⟩)
              "justify".data 0 120 (some 288) none none false (some 228) "auto".data []) ]
        else bulletOrDefault t
      | none => bulletOrDefault t

/-- Rendering of one content item, threading the global equation
counter. -/
def renderContentItem (item : ContentItem) (counter : Nat) : List Elem × Nat :=
  match item with
  | .equation s => ([.para (eqPara (counter + 1) s)], counter + 1)
  | .text t => (renderTextItem t, counter)

def renderContent : List ContentItem → Nat → List Elem × Nat
  | [], c => ([], c)
  | it :: rest, c =>
    let p := renderContentItem it c
    let q := renderContent rest p.2
    (p.1 ++ q.1, q.2)

def renderDocSection (s : DocSection) (c : Nat) : List Elem × Nat :=
  let p := renderContent s.content c
  (renderSectionHead s ++ p.1, p.2)

def renderSections : List DocSection → Nat → List Elem × Nat
  | [], c => ([], c)
  | s :: rest, c =>
    let p := renderDocSection s c
    let q := renderSections rest p.2
    (p.1 ++ q.1, q.2)

/-- The References heading paragraph. -/
def refsHeadPara : Para :=
  make_paragraph [make_run "References".data 10 false false true false false]
    "center".data 200 80 none none none false (some 228) "auto".data []

/-- One reference paragraph: `[i+1]` plus a non-breaking space, then the
stripped reference text; hanging indent 354, 9pt exact line spacing. -/
def refPara (i : Nat) (r : List Char) : Para :=
  make_paragraph
    [ make_run ('[' :: natToChars (i + 1) ++ ']' :: [NBSP]) 8 false false false false false,
      make_run (strip_markdown r) 8 false false false false false ]
    "justify".data 0 50 none (some 354) (some 354) false (some 180) "exact".data []

def refParas : List (List Char) → Nat → List Elem
  | [], _ => []
  | r :: rest, i => .para (refPara i r) :: refParas rest (i + 1)

/-- `build_document`: the emitted body stream, in final order.  The
author-row breaks sit immediately before their rows, the (single-column)
break built by `inject_continuous_two_col_section_break` sits immediately
before the abstract paragraph, and the rebuilt document-level two-column
descriptor is the last child of the body. -/
def build_document (d : ParsedDoc) : List Elem :=
  Elem.para (titlePara d)
    :: authorBlock d.authors
    ++ Elem.breakPara preAbstractSectPr
    :: Elem.para (abstractPara d)
    :: keywordsElems d
    ++ (renderSections d.sections 0).1
    ++ Elem.para refsHeadPara
    :: refParas d.references 0
    ++ [Elem.finalSect finalSectPr]

end Md2Docx

namespace Md2Docx

/-! The command-line surface of `main` (decision structure only: which
messages are printed and whether the process exits before parsing). -/

inductive MainEvent
  | printErrEvt
  | exitNonZero
  | warnExt
  | parseEvt
  | buildEvt
  | saveEvt
deriving DecidableEq

/-- ASCII lowering of the path suffix, as `str.lower()` behaves on
(ASCII) file extensions. -/
def lowerL (l : List Char) : List Char := l.map Char.toLower

/-- The event trace of `main`, as a function of whether the resolved
input path exists and of its suffix: a missing file prints a diagnostic
and exits with status 1 before any parsing; a non-`.md` suffix only
prints a warning and processing continues through parse, build and
save. -/
def mainTrace (inputExists : Bool) (suffix : List Char) : List MainEvent :=
  if !inputExists then [.printErrEvt, .exitNonZero]
  else
    (if lowerL suffix = ".md".data then [] else [.warnExt])
      ++ [.parseEvt, .buildEvt, .saveEvt]

/-! The section-numbering counters of `parse_markdown`: `h1_count`
increments on every `## ` heading line and resets `h2_count`; `h2_count`
increments on every `### ` heading line. -/

/-- A heading line's level: `## ` produces level 1, `### ` level 2. -/
inductive Lvl
  | one
  | two
deriving DecidableEq

/-- The counter fold of `parse_markdown` over the heading lines, pairing
each heading with the number stored in its section dict. -/
def secNumAux (c1 c2 : Nat) : List Lvl → List (Lvl × Nat)
  | [] => []
  | .one :: rest => (.one, c1 + 1) :: secNumAux (c1 + 1) 0 rest
  | .two :: rest => (.two, c2 + 1) :: secNumAux c1 (c2 + 1) rest

def sectionNumbers (ls : List Lvl) : List (Lvl × Nat) := secNumAux 0 0 ls

/-- The rendered number prefix of a heading, per `build_document`:
Roman numeral at level 1, letter at level 2. -/
def headingNum : Lvl × Nat → List Char
  | (.one, n) => to_roman n
  | (.two, n) => [to_letter n]

def headingNums (ls : List Lvl) : List (List Char) :=
  (sectionNumbers ls).map headingNum

/-! Extraction helpers over the emitted element stream. -/

/-- The descriptor of a break paragraph. -/
def elemBreakPr : Elem → Option SectPr
  | .breakPara s => some s
  | _ => none

/-- The descriptor of a break paragraph or of the trailing document
descriptor. -/
def elemAnySect : Elem → Option SectPr
  | .breakPara s => some s
  | .finalSect s => some s
  | _ => none

/-- All paragraph-embedded section breaks, in stream order. -/
def paraBreaks (es : List Elem) : List SectPr := es.filterMap elemBreakPr

/-- All region descriptors (paragraph-embedded breaks and the trailing
document-level descriptor), in stream order. -/
def allSects (es : List Elem) : List SectPr := es.filterMap elemAnySect

def isFinalSect : Elem → Bool
  | .finalSect _ => true
  | _ => false

/-- The text of a paragraph's last run, when that run is a text run. -/
def lastTextOf (p : Para) : Option (List Char) :=
  match p.runs.getLast? with
  | some (.textRun t) => some t.text
  | _ => none

/-- The trailing number runs of the equation paragraphs (identified by
their unique tab-stop configuration), in stream order. -/
def eqTrailing (es : List Elem) : List (List Char) :=
  es.filterMap (fun e =>
    match e with
    | .para p => if p.tabStops = eqTabStops then lastTextOf p else none
    | _ => none)

/-- The number of equation items of a content list. -/
def countEq (items : List ContentItem) : Nat :=
  items.countP (fun it => match it with | .equation _ => true | _ => false)

/-- The number of equation items of a whole document. -/
def totalEq (d : ParsedDoc) : Nat :=
  (d.sections.map (fun s => countEq s.content)).sum

/-- The author-row column counts as the claims state them: rows of four
until fewer than four authors remain. -/
def specRowColsF : Nat → Nat → List Nat
  | 0, _ => []
  | f + 1, n => if n = 0 then [] else min n 4 :: specRowColsF f (n - min n 4)

def specRowCols (n : Nat) : List Nat := specRowColsF n n

end Md2Docx

namespace Md2Docx

/-! Identity of the transliterator on text containing no backslash and no
dollar marker: none of the rewrite passes can fire, because every pattern
they look for starts with one of those two characters. -/

theorem beq_bs_false {c : Char} (hc : c ≠ '\\') : (c == '\\') = false := by
  simpa using hc

theorem lstartsWith_bs_false {ps l : List Char} {c : Char} (hc : c ≠ '\\') :
    lstartsWith ('\\' :: ps) (c :: l) = false := by
  have : ('\\' == c) = false := by
    simp only [beq_eq_false_iff_ne, ne_eq]
    exact fun e => hc e.symm
  simp [lstartsWith, this]

theorem normBSF_id (f : Nat) (l : List Char) (h : '\\' ∉ l) : normBSF f l = l := by
  induction f generalizing l with
  | zero => rfl
  | succ f ih =>
    cases l with
    | nil => rfl
    | cons c rest =>
      have hc : c ≠ '\\' := fun e => h (by simp [e])
      have hrest : '\\' ∉ rest := fun m => h (List.mem_cons_of_mem _ m)
      cases rest with
      | nil => simp [normBSF, ih [] (by simp)]
      | cons d r1 =>
        cases r1 with
        | nil => simp [normBSF, ih _ hrest]
        | cons e r2 =>
          simp [normBSF, beq_bs_false hc, ih _ hrest]

theorem textCmdSubF_id (f : Nat) (l : List Char) (h : '\\' ∉ l) :
    textCmdSubF f l = l := by
  induction f generalizing l with
  | zero => rfl
  | succ f ih =>
    cases l with
    | nil => rfl
    | cons c rest =>
      have hc : c ≠ '\\' := fun e => h (by simp [e])
      have hrest : '\\' ∉ rest := fun m => h (List.mem_cons_of_mem _ m)
      simp [textCmdSubF, textCmdPat, lstartsWith_bs_false hc, ih _ hrest]

theorem mathbbSubF_id (f : Nat) (l : List Char) (h : '\\' ∉ l) :
    mathbbSubF f l = l := by
  induction f generalizing l with
  | zero => rfl
  | succ f ih =>
    cases l with
    | nil => rfl
    | cons c rest =>
      have hc : c ≠ '\\' := fun e => h (by simp [e])
      have hrest : '\\' ∉ rest := fun m => h (List.mem_cons_of_mem _ m)
      simp [mathbbSubF, mathbbPat, lstartsWith_bs_false hc, ih _ hrest]

theorem fracSubF_id (f : Nat) (l : List Char) (h : '\\' ∉ l) :
    fracSubF f l = l := by
  induction f generalizing l with
  | zero => rfl
  | succ f ih =>
    cases l with
    | nil => rfl
    | cons c rest =>
      have hc : c ≠ '\\' := fun e => h (by simp [e])
      have hrest : '\\' ∉ rest := fun m => h (List.mem_cons_of_mem _ m)
      simp [fracSubF, fracPat, lstartsWith_bs_false hc, ih _ hrest]

theorem funcSubF_id (nm : List Char) (f : Nat) (l : List Char) (h : '\\' ∉ l) :
    funcSubF nm f l = l := by
  induction f generalizing l with
  | zero => rfl
  | succ f ih =>
    cases l with
    | nil => rfl
    | cons c rest =>
      have hc : c ≠ '\\' := fun e => h (by simp [e])
      have hrest : '\\' ∉ rest := fun m => h (List.mem_cons_of_mem _ m)
      simp [funcSubF, lstartsWith_bs_false hc, ih _ hrest]

theorem replAllF_id (pat rep : List Char) (f : Nat) (l : List Char)
    (hp : pat.head? = some '\\') (h : '\\' ∉ l) : replAllF pat rep f l = l := by
  induction f generalizing l with
  | zero => rfl
  | succ f ih =>
    cases l with
    | nil => rfl
    | cons c rest =>
      have hc : c ≠ '\\' := fun e => h (by simp [e])
      have hrest : '\\' ∉ rest := fun m => h (List.mem_cons_of_mem _ m)
      cases pat with
      | nil => simp at hp
      | cons p0 ps =>
        have hp0 : p0 = '\\' := by simpa using hp
        subst hp0
        simp [replAllF, lstartsWith_bs_false hc, ih _ hrest]

theorem funcsSub_id (l : List Char) (h : '\\' ∉ l) : funcsSub l = l := by
  have key : ∀ nms : List (List Char), ∀ t : List Char, '\\' ∉ t →
      nms.foldl (fun acc nm => funcSub nm acc) t = t := by
    intro nms
    induction nms with
    | nil => intro t _; rfl
    | cons nm nms ih =>
      intro t ht
      have : funcSub nm t = t := funcSubF_id nm t.length t ht
      simpa [List.foldl_cons, this] using ih t ht
  exact key LATEX_FUNCTIONS l h

theorem glyphsSub_id (l : List Char) (h : '\\' ∉ l) : glyphsSub l = l := by
  have hall : ∀ p ∈ sortedGlyphs, p.1.head? = some '\\' := by decide
  have key : ∀ ps : List (List Char × List Char),
      (∀ p ∈ ps, p.1.head? = some '\\') → ∀ t : List Char, '\\' ∉ t →
      ps.foldl (fun acc p => replAll p.1 p.2 acc) t = t := by
    intro ps
    induction ps with
    | nil => intro _ t _; rfl
    | cons q ps ih =>
      intro hq t ht
      have h1 : replAll q.1 q.2 t = t :=
        replAllF_id q.1 q.2 t.length t (hq q (by simp)) ht
      simpa [List.foldl_cons, h1] using ih (fun p hp => hq p (by simp [hp])) t ht
  exact key sortedGlyphs hall l h

theorem resolveLatexCommandsL_id (l : List Char) (h : '\\' ∉ l) :
    resolveLatexCommandsL l = l := by
  unfold resolveLatexCommandsL normBS textCmdSub mathbbSub fracSub
  rw [normBSF_id _ _ h, textCmdSubF_id _ _ h, mathbbSubF_id _ _ h,
    fracSubF_id _ _ h, funcsSub_id _ h, glyphsSub_id _ h]

theorem inlineMathF_id (f : Nat) (prev : Option Char) (l : List Char)
    (h : '$' ∉ l) : inlineMathF f prev l = l := by
  induction f generalizing prev l with
  | zero => rfl
  | succ f ih =>
    cases l with
    | nil => rfl
    | cons c rest =>
      have hc : c ≠ '$' := fun e => h (by simp [e])
      have hrest : '$' ∉ rest := fun m => h (List.mem_cons_of_mem _ m)
      have : (c == '$') = false := by simpa using hc
      simp [inlineMathF, this, ih _ _ hrest]

theorem resolve_latex_id (l : List Char) (hb : '\\' ∉ l) (hd : '$' ∉ l) :
    resolve_latex l = l := by
  unfold resolve_latex inlineMath normBS
  rw [normBSF_id _ _ hb, inlineMathF_id _ _ _ hd, resolveLatexCommandsL_id _ hb]

end Md2Docx

namespace Md2Docx

/-! Concrete transliterator inputs used by the fraction and idempotence
results (written as character lists; they denote the source strings with
a single backslash before each command). -/

/-- The input `\frac` of `a+b` over `c`. -/
def fracSimpleL : List Char :=
  ['\\', 'f', 'r', 'a', 'c', '{', 'a', '+', 'b', '}', '{', 'c', '}']

/-- The one-level-nested input: `\frac` of (`\frac` of `a` over `b`) over `c`. -/
def fracNestedL : List Char :=
  ['\\', 'f', 'r', 'a', 'c', '{', '\\', 'f', 'r', 'a', 'c',
   '{', 'a', '}', '{', 'b', '}', '}', '{', 'c', '}']

/-- The output `(a+b)/(c)`. -/
def fracSimpleOutL : List Char :=
  ['(', 'a', '+', 'b', ')', '/', '(', 'c', ')']

/-- The actual nested output: the inner `\frac` group is captured whole
but left unrewritten by the single pass. -/
def fracNestedOutL : List Char :=
  ['(', '\\', 'f', 'r', 'a', 'c', '{', 'a', '}', '{', 'b', '}', ')', '/',
   '(', 'c', ')']

/-- The output the specification claims for the nested input:
`((a)/(b))/(c)`. -/
def fracNestedClaimedL : List Char :=
  ['(', '(', 'a', ')', '/', '(', 'b', ')', ')', '/', '(', 'c', ')']

/-- C3 (counterexample): the fraction rewrite does not map the
one-level-nested input to `((a)/(b))/(c)`; the single `re.sub` pass
captures the inner fraction inside the first argument and emits it
verbatim. -/
theorem frac_nested_counterexample :
    resolveLatexCommandsL fracNestedL ≠ fracNestedClaimedL := by decide

/-- C3 (amended): the fraction rewrite maps `\frac` of `a+b` over `c` to
`(a+b)/(c)`, and maps the one-level-nested input to the inner fraction
parenthesized verbatim over `(c)` — the arguments are matched
brace-balanced (the whole inner fraction is captured, not a non-greedy
slice to the next brace), but the replacement is not rescanned. -/
theorem frac_rewrite_amended :
    resolveLatexCommandsL fracSimpleL = fracSimpleOutL
    ∧ resolveLatexCommandsL fracNestedL = fracNestedOutL := by
  exact ⟨by decide, by decide⟩

/-- C6 (counterexample): the transliterator is not idempotent on every
input: one pass over the nested-fraction input leaves a recognized
`\frac` command in its output, and a second pass rewrites it further. -/
theorem resolve_latex_not_idempotent :
    resolve_latex (resolve_latex fracNestedL) ≠ resolve_latex fracNestedL := by
  decide

/-- C6 (amended): the transliterator is idempotent on already-resolved
text that contains no remaining recognized notation, i.e. no backslash
command and no inline-math marker: when one pass leaves neither
character, a second pass is the identity. -/
theorem resolve_latex_idempotent_on_resolved (s : List Char)
    (h1 : '\\' ∉ resolve_latex s) (h2 : '$' ∉ resolve_latex s) :
    resolve_latex (resolve_latex s) = resolve_latex s :=
  resolve_latex_id (resolve_latex s) h1 h2

/-- Witness for the amended C6 at the concrete input `\alpha x`, whose
one-pass output (the Greek letter followed by ` x`) contains no
backslash and no dollar sign. -/
theorem resolve_latex_idempotent_witness :
    ('\\' ∉ resolve_latex "\\alpha x".data)
    ∧ ('$' ∉ resolve_latex "\\alpha x".data)
    ∧ resolve_latex (resolve_latex "\\alpha x".data) = resolve_latex "\\alpha x".data :=
  ⟨by decide, by decide,
    resolve_latex_idempotent_on_resolved "\\alpha x".data (by decide) (by decide)⟩

/-- C7: the math-run splitter on the input `X` with subscript group `ab`
and superscript character `c` yields exactly three ordered runs: plain
`X`, subscript `ab`, superscript `c` (all at the default body size and
weight). -/
theorem math_split_three_runs :
    parse_math_text ['X', '_', '{', 'a', 'b', '}', '^', 'c'] ⟨10, false, false, FONT⟩ =
      [ .textRun ⟨['X'], 10, false, false, false, false, false, FONT⟩,
        .textRun ⟨['a', 'b'], 10, false, false, false, true, false, FONT⟩,
        .textRun ⟨['c'], 10, false, false, false, false, true, FONT⟩ ] := by
  decide

end Md2Docx

namespace Md2Docx

/-! Section-numbering lemmas (C5). -/

/-- The number of level-1 headings in a list. -/
def countOnes : List Lvl → Nat
  | [] => 0
  | .one :: rest => countOnes rest + 1
  | .two :: rest => countOnes rest

/-- The value of the `h2_count` counter after processing a heading list
starting from `c2`. -/
def h2After (c2 : Nat) : List Lvl → Nat
  | [] => c2
  | .one :: rest => h2After 0 rest
  | .two :: rest => h2After (c2 + 1) rest

theorem secNumAux_append (xs ys : List Lvl) (c1 c2 : Nat) :
    secNumAux c1 c2 (xs ++ ys)
      = secNumAux c1 c2 xs ++ secNumAux (c1 + countOnes xs) (h2After c2 xs) ys := by
  induction xs generalizing c1 c2 with
  | nil => simp [secNumAux, countOnes, h2After]
  | cons x xs ih =>
    cases x with
    | one =>
      simp only [List.cons_append, secNumAux, countOnes, h2After, List.append_eq]
      rw [ih]
      have harith : c1 + 1 + countOnes xs = c1 + (countOnes xs + 1) := by omega
      rw [harith]
    | two =>
      simp only [List.cons_append, secNumAux, countOnes, h2After, List.append_eq]
      rw [ih]

/-- C5: for heading levels `[1, 2, 2, 1, 2]` the rendered number
prefixes are `I, A, B, II, A`; moreover, over any prefix of headings and
any counter state, the level-2 counter restarts at 1 (letter A)
immediately after any new level-1 heading, consecutive level-2 headings
with no level-1 between them get successive numbers, and a level-1
heading receives one more than the number of level-1 headings before
it. -/
theorem section_numbering_thm :
    (headingNums [Lvl.one, .two, .two, .one, .two]
        = ["I".data, "A".data, "B".data, "II".data, "A".data])
    ∧ (∀ xs : List Lvl, ∀ c1 c2 : Nat,
        (secNumAux c1 c2 (xs ++ [.one, .two])).getLast? = some (.two, 1))
    ∧ (∀ xs : List Lvl, ∀ c1 c2 k : Nat,
        (secNumAux c1 c2 (xs ++ [.two])).getLast? = some (.two, k) →
          (secNumAux c1 c2 (xs ++ [.two, .two])).getLast? = some (.two, k + 1))
    ∧ (∀ xs : List Lvl, ∀ c1 c2 : Nat,
        (secNumAux c1 c2 (xs ++ [.one])).getLast? = some (.one, c1 + countOnes xs + 1)) := by
  refine ⟨by decide, ?_, ?_, ?_⟩
  · intro xs c1 c2
    rw [secNumAux_append]
    have : secNumAux (c1 + countOnes xs) (h2After c2 xs) [.one, .two]
        = [(.one, c1 + countOnes xs + 1), (.two, 1)] := rfl
    rw [this]
    rw [show secNumAux c1 c2 xs ++ [(Lvl.one, c1 + countOnes xs + 1), (Lvl.two, 1)]
        = (secNumAux c1 c2 xs ++ [(Lvl.one, c1 + countOnes xs + 1)]) ++ [(Lvl.two, 1)] by
      simp]
    exact List.getLast?_concat _
  · intro xs c1 c2 k hk
    rw [secNumAux_append] at hk
    have h1 : secNumAux (c1 + countOnes xs) (h2After c2 xs) [.two]
        = [(.two, h2After c2 xs + 1)] := rfl
    rw [h1, List.getLast?_concat] at hk
    have hk2 : h2After c2 xs + 1 = k := congrArg Prod.snd (Option.some.inj hk)
    rw [secNumAux_append]
    have h2 : secNumAux (c1 + countOnes xs) (h2After c2 xs) [.two, .two]
        = [(.two, h2After c2 xs + 1), (.two, h2After c2 xs + 2)] := rfl
    rw [h2]
    rw [show secNumAux c1 c2 xs
          ++ [(Lvl.two, h2After c2 xs + 1), (Lvl.two, h2After c2 xs + 2)]
        = (secNumAux c1 c2 xs ++ [(Lvl.two, h2After c2 xs + 1)])
          ++ [(Lvl.two, h2After c2 xs + 2)] by simp]
    rw [List.getLast?_concat]
    rw [show k + 1 = h2After c2 xs + 2 by omega]
  · intro xs c1 c2
    rw [secNumAux_append]
    have : secNumAux (c1 + countOnes xs) (h2After c2 xs) [.one]
        = [(.one, c1 + countOnes xs + 1)] := rfl
    rw [this, List.getLast?_concat]

/-- Witness for C5's quantified parts at a concrete heading list. -/
theorem section_numbering_witness :
    (secNumAux 0 0 ([Lvl.one, .two] ++ [.two])).getLast? = some (Lvl.two, 2) := by
  have h := section_numbering_thm.2.2.1 [Lvl.one] 0 0 1 (by decide)
  simpa using h

/-- C9: on the command-line surface, a missing input file prints the
diagnostic and exits with a non-zero status before any parsing or
building, while an existing file with an unexpected extension only gets
a warning and processing continues through parse, build and save. -/
theorem cli_error_handling :
    (∀ suffix : List Char,
        mainTrace false suffix = [.printErrEvt, .exitNonZero]
        ∧ MainEvent.parseEvt ∉ mainTrace false suffix
        ∧ MainEvent.buildEvt ∉ mainTrace false suffix)
    ∧ (∀ suffix : List Char, lowerL suffix ≠ ".md".data →
        mainTrace true suffix = [.warnExt, .parseEvt, .buildEvt, .saveEvt]
        ∧ MainEvent.exitNonZero ∉ mainTrace true suffix
        ∧ MainEvent.saveEvt ∈ mainTrace true suffix) := by
  constructor
  · intro suffix
    refine ⟨rfl, ?_, ?_⟩ <;> simp [mainTrace]
  · intro suffix hs
    have : mainTrace true suffix = [.warnExt, .parseEvt, .buildEvt, .saveEvt] := by
      simp [mainTrace, hs]
    refine ⟨this, ?_, ?_⟩ <;> rw [this] <;> simp

/-- Witness for C9 at the suffix `.txt`. -/
theorem cli_error_handling_witness :
    lowerL ".txt".data ≠ ".md".data
    ∧ mainTrace true ".txt".data = [.warnExt, .parseEvt, .buildEvt, .saveEvt] :=
  ⟨by decide, (cli_error_handling.2 ".txt".data (by decide)).1⟩

end Md2Docx

namespace Md2Docx

/-- The shape guard of the heading-strip regex: a nonempty leading run
of ASCII alphanumerics followed immediately by a period. -/
def startsTokenDot (h : List Char) : Bool :=
  !(h.takeWhile isAsciiAlnum).isEmpty
    && ((h.drop (h.takeWhile isAsciiAlnum).length).head? == some '.')

/-- C10: the heading renderer strips any leading alphanumeric token
followed by a period (plus trailing whitespace) before the new prefix is
applied — including an ordinary first word ending in a period, so a
level-1 heading `Intro. and Motivation` with number 1 renders as
`I. and Motivation` — while headings without such a leading token are
prefixed unchanged.  The stripped token is exactly the maximal leading
alphanumeric run. -/
theorem heading_prefix_stripping :
    (renderSectionHead ⟨1, "Intro. and Motivation".data, 1, []⟩
        = [ .para (make_paragraph
            [make_run "I. and Motivation".data 10 false false true false false]
            "center".data 160 80 none none none true (some 228) "auto".data []) ])
    ∧ (∀ h : List Char, startsTokenDot h = false → headingStrip h = h)
    ∧ (∀ h : List Char, startsTokenDot h = true →
        h.takeWhile isAsciiAlnum ≠ []
        ∧ (∀ c ∈ h.takeWhile isAsciiAlnum, isAsciiAlnum c = true)
        ∧ h = h.takeWhile isAsciiAlnum
            ++ '.' :: h.drop ((h.takeWhile isAsciiAlnum).length + 1)
        ∧ headingStrip h
            = (h.drop ((h.takeWhile isAsciiAlnum).length + 1)).dropWhile isPySpace) := by
  refine ⟨by decide, ?_, ?_⟩
  · intro h hf
    unfold startsTokenDot at hf
    unfold headingStrip
    rw [hf]
    rfl
  · intro h ht
    have hsplit : h.takeWhile isAsciiAlnum ++ h.dropWhile isAsciiAlnum = h := by
      simp
    have hdropTW : h.drop (h.takeWhile isAsciiAlnum).length = h.dropWhile isAsciiAlnum := by
      have step : h.drop (h.takeWhile isAsciiAlnum).length
          = (h.takeWhile isAsciiAlnum ++ h.dropWhile isAsciiAlnum).drop
              (h.takeWhile isAsciiAlnum).length := by
        rw [hsplit]
      rw [step, List.drop_left]
    have hcond := ht
    unfold startsTokenDot at hcond
    rw [Bool.and_eq_true] at hcond
    obtain ⟨hne, hdot⟩ := hcond
    have hne' : h.takeWhile isAsciiAlnum ≠ [] := by
      simpa using hne
    have hdot' : (h.drop (h.takeWhile isAsciiAlnum).length).head? = some '.' := by
      simpa using hdot
    rw [hdropTW] at hdot'
    obtain ⟨tl, htl⟩ : ∃ tl, h.dropWhile isAsciiAlnum = '.' :: tl := by
      cases hdw : h.dropWhile isAsciiAlnum with
      | nil => rw [hdw] at hdot'; simp at hdot'
      | cons a tl =>
        rw [hdw] at hdot'
        simp only [List.head?_cons, Option.some.injEq] at hdot'
        exact ⟨tl, by rw [hdot']⟩
    have hdrop1 : h.drop ((h.takeWhile isAsciiAlnum).length + 1) = tl := by
      have step : h.drop ((h.takeWhile isAsciiAlnum).length + 1)
          = (h.drop (h.takeWhile isAsciiAlnum).length).drop 1 := by
        rw [List.drop_drop, Nat.add_comm]
      rw [step, hdropTW, htl]
      rfl
    refine ⟨hne', ?_, ?_, ?_⟩
    · intro c hc
      exact List.mem_takeWhile_imp hc
    · conv => lhs; rw [← hsplit]
      rw [htl, hdrop1]
    · unfold startsTokenDot at ht
      unfold headingStrip
      rw [ht]
      rfl

/-- Witness for C10 at a heading with no strippable prefix. -/
theorem heading_prefix_stripping_witness :
    headingStrip "Overview".data = "Overview".data :=
  heading_prefix_stripping.2.1 "Overview".data (by decide)

end Md2Docx

namespace Md2Docx

/-! Stream lemmas: how the extraction functions act on the pieces of the
emitted element list. -/

theorem allSects_nil : allSects [] = [] := rfl

theorem eqTrailing_nil : eqTrailing [] = [] := rfl

theorem allSects_append (a b : List Elem) :
    allSects (a ++ b) = allSects a ++ allSects b := by
  simp [allSects]

theorem eqTrailing_append (a b : List Elem) :
    eqTrailing (a ++ b) = eqTrailing a ++ eqTrailing b := by
  simp [eqTrailing]

theorem allSects_cons_para (p : Para) (es : List Elem) :
    allSects (.para p :: es) = allSects es := by
  simp [allSects, elemAnySect]

theorem allSects_cons_brk (s : SectPr) (es : List Elem) :
    allSects (.breakPara s :: es) = s :: allSects es := by
  simp [allSects, elemAnySect]

theorem allSects_cons_final (s : SectPr) (es : List Elem) :
    allSects (.finalSect s :: es) = s :: allSects es := by
  simp [allSects, elemAnySect]

theorem eqTrailing_cons_para_ne (p : Para) (es : List Elem)
    (h : p.tabStops ≠ eqTabStops) :
    eqTrailing (.para p :: es) = eqTrailing es := by
  simp [eqTrailing, h]

theorem eqTrailing_cons_brk (s : SectPr) (es : List Elem) :
    eqTrailing (.breakPara s :: es) = eqTrailing es := by
  simp [eqTrailing]

theorem eqTrailing_cons_final (s : SectPr) (es : List Elem) :
    eqTrailing (.finalSect s :: es) = eqTrailing es := by
  simp [eqTrailing]

/-- A block that is empty or a single tab-stop-free paragraph contributes
no section descriptor, no equation trailer and no terminal descriptor. -/
theorem plainBlock_facts (es : List Elem)
    (h : es = [] ∨ ∃ p : Para, p.tabStops = [] ∧ es = [.para p]) :
    allSects es = [] ∧ eqTrailing es = [] ∧ es.countP isFinalSect = 0 := by
  rcases h with rfl | ⟨p, hp, rfl⟩
  · exact ⟨rfl, rfl, rfl⟩
  · refine ⟨rfl, ?_, rfl⟩
    simp [eqTrailing, hp, eqTabStops]

theorem renderTextItem_facts (t : List Char) :
    allSects (renderTextItem t) = [] ∧ eqTrailing (renderTextItem t) = []
    ∧ (renderTextItem t).countP isFinalSect = 0 := by
  apply plainBlock_facts
  unfold renderTextItem bulletOrDefault
  repeat' split
  all_goals first
    | exact Or.inl rfl
    | exact Or.inr ⟨_, rfl, rfl⟩

theorem renderSectionHead_facts (s : DocSection) :
    allSects (renderSectionHead s) = [] ∧ eqTrailing (renderSectionHead s) = []
    ∧ (renderSectionHead s).countP isFinalSect = 0 := by
  apply plainBlock_facts
  unfold renderSectionHead
  repeat' split
  all_goals first
    | exact Or.inl rfl
    | exact Or.inr ⟨_, rfl, rfl⟩

theorem isFinalSect_para (p : Para) : isFinalSect (.para p) = false := rfl

theorem eqPara_tabStops (k : Nat) (s : List Char) :
    (eqPara k s).tabStops = eqTabStops := rfl

theorem eqPara_lastTextOf (k : Nat) (s : List Char) :
    lastTextOf (eqPara k s) = some ('(' :: natToChars k ++ [')']) := by
  unfold lastTextOf
  have hruns : (eqPara k s).runs
      = (RunE.tabRun
          :: parse_math_text (nbspify (resolve_latex (strip_markdown s))) ⟨10, false, false, FONT⟩
          ++ [RunE.tabRun])
        ++ [make_run ('(' :: natToChars k ++ [')']) 10 false false false false false] := by
    show RunE.tabRun :: parse_math_text (nbspify (resolve_latex (strip_markdown s))) ⟨10, false, false, FONT⟩
        ++ [RunE.tabRun, make_run ('(' :: natToChars k ++ [')']) 10 false false false false false] = _
    simp
  rw [hruns, List.getLast?_concat]
  rfl

/-- The combined facts for the content walk: no descriptors, no terminal
descriptor, the counter advances by the number of equation items, and the
equation trailers are the consecutive numbers starting one above the
incoming counter. -/
theorem renderContent_facts (items : List ContentItem) :
    ∀ c : Nat,
      allSects (renderContent items c).1 = []
      ∧ (renderContent items c).1.countP isFinalSect = 0
      ∧ (renderContent items c).2 = c + countEq items
      ∧ eqTrailing (renderContent items c).1
          = (List.range' (c + 1) (countEq items)).map (fun k => '(' :: natToChars k ++ [')']) := by
  induction items with
  | nil =>
    intro c
    exact ⟨rfl, rfl, by simp [renderContent, countEq], by simp [renderContent, eqTrailing, countEq]⟩
  | cons it rest ih =>
    intro c
    cases it with
    | text t =>
      obtain ⟨h1, h2, h3, h4⟩ := ih c
      obtain ⟨g1, g2, g3⟩ := renderTextItem_facts t
      have hr : renderContent (ContentItem.text t :: rest) c
          = (renderTextItem t ++ (renderContent rest c).1, (renderContent rest c).2) := by
        simp [renderContent, renderContentItem]
      have hcnt : countEq (ContentItem.text t :: rest) = countEq rest := by
        simp [countEq]
      rw [hr, hcnt]
      refine ⟨?_, ?_, ?_, ?_⟩
      · simp [allSects_append, g1, h1]
      · simp [List.countP_append, g3, h2]
      · exact h3
      · simp [eqTrailing_append, g2, h4]
    | equation s =>
      obtain ⟨h1, h2, h3, h4⟩ := ih (c + 1)
      have hr : renderContent (ContentItem.equation s :: rest) c
          = (Elem.para (eqPara (c + 1) s) :: (renderContent rest (c + 1)).1,
             (renderContent rest (c + 1)).2) := by
        simp [renderContent, renderContentItem]
      have hcnt : countEq (ContentItem.equation s :: rest) = countEq rest + 1 := by
        simp [countEq]
      rw [hr, hcnt]
      refine ⟨?_, ?_, ?_, ?_⟩
      · rw [allSects_cons_para, h1]
      · simp [List.countP_cons, isFinalSect_para, h2]
      · rw [h3]; omega
      · rw [show eqTrailing (Elem.para (eqPara (c + 1) s) :: (renderContent rest (c + 1)).1)
            = ('(' :: natToChars (c + 1) ++ [')'])
                :: eqTrailing (renderContent rest (c + 1)).1 by
          simp [eqTrailing, eqPara_tabStops, eqPara_lastTextOf]]
        rw [h4, List.range'_succ]
        simp

/-- The per-document-section sum of equation items. -/
def sumEq (ss : List DocSection) : Nat :=
  (ss.map (fun s => countEq s.content)).sum

theorem renderSections_facts (ss : List DocSection) :
    ∀ c : Nat,
      allSects (renderSections ss c).1 = []
      ∧ (renderSections ss c).1.countP isFinalSect = 0
      ∧ (renderSections ss c).2 = c + sumEq ss
      ∧ eqTrailing (renderSections ss c).1
          = (List.range' (c + 1) (sumEq ss)).map (fun k => '(' :: natToChars k ++ [')']) := by
  induction ss with
  | nil =>
    intro c
    exact ⟨rfl, rfl, by simp [renderSections, sumEq], by simp [renderSections, eqTrailing, sumEq]⟩
  | cons s rest ih =>
    intro c
    obtain ⟨c1, c2, c3, c4⟩ := renderContent_facts s.content c
    obtain ⟨hd1, hd2, hd3⟩ := renderSectionHead_facts s
    obtain ⟨r1, r2, r3, r4⟩ := ih (c + countEq s.content)
    have hr : renderSections (s :: rest) c
        = ((renderSectionHead s ++ (renderContent s.content c).1)
            ++ (renderSections rest (renderContent s.content c).2).1,
           (renderSections rest (renderContent s.content c).2).2) := by
      simp [renderSections, renderDocSection]
    have hsum : sumEq (s :: rest) = countEq s.content + sumEq rest := by
      simp [sumEq]
    rw [hr, c3, hsum]
    refine ⟨?_, ?_, ?_, ?_⟩
    · simp [allSects_append, hd1, c1, r1]
    · simp [List.countP_append, hd3, c2, r2]
    · rw [r3]; omega
    · rw [eqTrailing_append, eqTrailing_append, hd2, c4, r4]
      rw [List.nil_append, ← List.map_append]
      rw [show c + countEq s.content + 1 = c + 1 + countEq s.content by omega]
      rw [List.range'_append_1]
      rw [Nat.add_comm (sumEq rest) (countEq s.content)]

end Md2Docx

namespace Md2Docx

/-! Author-block stream lemmas. -/

theorem paras_map_facts {α : Type} (g : α → Elem) (l : List α)
    (hg : ∀ x, ∃ p : Para, g x = Elem.para p ∧ p.tabStops = []) :
    allSects (l.map g) = [] ∧ eqTrailing (l.map g) = []
    ∧ (l.map g).countP isFinalSect = 0 := by
  induction l with
  | nil => exact ⟨rfl, rfl, rfl⟩
  | cons a l ih =>
    obtain ⟨i1, i2, i3⟩ := ih
    obtain ⟨p, hp, htb⟩ := hg a
    refine ⟨?_, ?_, ?_⟩
    · rw [List.map_cons, hp, allSects_cons_para, i1]
    · rw [List.map_cons, hp, eqTrailing_cons_para_ne p _ (by rw [htb]; simp [eqTabStops]), i2]
    · rw [List.map_cons, hp]
      simp [List.countP_cons, isFinalSect_para, i3]

theorem authorRowElems_facts (row : List Author) :
    allSects (authorRowElems row) = [mkRowSectPr row.length]
    ∧ eqTrailing (authorRowElems row) = []
    ∧ (authorRowElems row).countP isFinalSect = 0 := by
  obtain ⟨m1, m2, m3⟩ :=
    paras_map_facts (fun a => Elem.para (make_author_paragraph a)) row (fun a => ⟨_, rfl, rfl⟩)
  unfold authorRowElems
  refine ⟨?_, ?_, ?_⟩
  · rw [allSects_cons_brk, m1]
  · rw [eqTrailing_cons_brk, m2]
  · simp [List.countP_cons, isFinalSect, m3]

theorem rows_flatMap_facts (rows : List (List Author)) :
    allSects (rows.flatMap authorRowElems)
      = rows.map (fun row => mkRowSectPr row.length)
    ∧ eqTrailing (rows.flatMap authorRowElems) = []
    ∧ (rows.flatMap authorRowElems).countP isFinalSect = 0 := by
  induction rows with
  | nil => exact ⟨rfl, rfl, rfl⟩
  | cons row rows ih =>
    obtain ⟨a1, a2, a3⟩ := authorRowElems_facts row
    obtain ⟨i1, i2, i3⟩ := ih
    refine ⟨?_, ?_, ?_⟩ <;>
      simp [List.flatMap_cons, allSects_append, eqTrailing_append, List.countP_append,
        a1, a2, a3, i1, i2, i3]

theorem authorBlock_noEq (authors : List Author) :
    eqTrailing (authorBlock authors) = []
    ∧ (authorBlock authors).countP isFinalSect = 0 := by
  cases authors with
  | nil => exact ⟨rfl, rfl⟩
  | cons a t =>
    cases t with
    | nil =>
      obtain ⟨m1, m2, m3⟩ :=
        paras_map_facts
          (fun ln => Elem.para (make_paragraph [make_run ln 10 false true false false false]
            "center".data 0 40 none none none false (some 228) "auto".data []))
          a.lines (fun ln => ⟨_, rfl, rfl⟩)
      refine ⟨?_, ?_⟩
      · show eqTrailing (Elem.para _ :: a.lines.map _) = []
        rw [eqTrailing_cons_para_ne _ _ (by simp [make_paragraph, eqTabStops]), m2]
      · show (Elem.para _ :: a.lines.map _).countP isFinalSect = 0
        rw [List.countP_cons]
        simp [isFinalSect_para, m3]
    | cons b r =>
      obtain ⟨f1, f2, f3⟩ := rows_flatMap_facts (authorRows (a :: b :: r) (min (a :: b :: r).length 4))
      exact ⟨f2, f3⟩

theorem authorBlock_sects_two (a b : Author) (r : List Author) :
    allSects (authorBlock (a :: b :: r))
      = (authorRows (a :: b :: r) (min (a :: b :: r).length 4)).map
          (fun row => mkRowSectPr row.length) :=
  (rows_flatMap_facts _).1

theorem authorBlock_sects_one (a : Author) : allSects (authorBlock [a]) = [] := by
  obtain ⟨m1, m2, m3⟩ :=
    paras_map_facts
      (fun ln => Elem.para (make_paragraph [make_run ln 10 false true false false false]
        "center".data 0 40 none none none false (some 228) "auto".data []))
      a.lines (fun ln => ⟨_, rfl, rfl⟩)
  show allSects (Elem.para _ :: a.lines.map _) = []
  rw [allSects_cons_para, m1]

/-! The reference and keyword blocks. -/

theorem refParas_facts (rs : List (List Char)) :
    ∀ i : Nat,
      allSects (refParas rs i) = [] ∧ eqTrailing (refParas rs i) = []
      ∧ (refParas rs i).countP isFinalSect = 0 := by
  induction rs with
  | nil => intro i; exact ⟨rfl, rfl, rfl⟩
  | cons rtext rs ih =>
    intro i
    obtain ⟨i1, i2, i3⟩ := ih (i + 1)
    refine ⟨?_, ?_, ?_⟩
    · show allSects (Elem.para _ :: refParas rs (i + 1)) = []
      rw [allSects_cons_para, i1]
    · show eqTrailing (Elem.para _ :: refParas rs (i + 1)) = []
      rw [eqTrailing_cons_para_ne _ _ (by simp [refPara, make_paragraph, eqTabStops]), i2]
    · show (Elem.para _ :: refParas rs (i + 1)).countP isFinalSect = 0
      simp [List.countP_cons, isFinalSect_para, i3]

theorem keywordsElems_facts (d : ParsedDoc) :
    allSects (keywordsElems d) = [] ∧ eqTrailing (keywordsElems d) = []
    ∧ (keywordsElems d).countP isFinalSect = 0 := by
  apply plainBlock_facts
  unfold keywordsElems
  split
  · exact Or.inl rfl
  · exact Or.inr ⟨_, rfl, rfl⟩

/-! Whole-stream decompositions of `build_document`. -/

theorem build_allSects (d : ParsedDoc) :
    allSects (build_document d)
      = allSects (authorBlock d.authors) ++ [preAbstractSectPr, finalSectPr] := by
  obtain ⟨k1, k2, k3⟩ := keywordsElems_facts d
  obtain ⟨s1, s2, s3, s4⟩ := renderSections_facts d.sections 0
  obtain ⟨r1, r2, r3⟩ := refParas_facts d.references 0
  unfold build_document
  simp [allSects_append, allSects_cons_para, allSects_cons_brk, allSects_cons_final,
    allSects_nil, k1, s1, r1]

theorem build_eqTrailing (d : ParsedDoc) :
    eqTrailing (build_document d) = eqTrailing (renderSections d.sections 0).1 := by
  obtain ⟨k1, k2, k3⟩ := keywordsElems_facts d
  obtain ⟨ab1, ab2⟩ := authorBlock_noEq d.authors
  obtain ⟨r1, r2, r3⟩ := refParas_facts d.references 0
  unfold build_document
  simp only [List.cons_append, List.append_assoc]
  rw [eqTrailing_cons_para_ne (titlePara d) _ (by simp [titlePara, make_paragraph, eqTabStops])]
  rw [eqTrailing_append, ab1, List.nil_append]
  rw [eqTrailing_cons_brk]
  rw [eqTrailing_cons_para_ne (abstractPara d) _
    (by simp [abstractPara, make_paragraph, eqTabStops])]
  rw [eqTrailing_append, k2, List.nil_append]
  rw [eqTrailing_append]
  rw [eqTrailing_cons_para_ne refsHeadPara _
    (by simp [refsHeadPara, make_paragraph, eqTabStops])]
  rw [eqTrailing_append, r2, List.nil_append]
  rw [eqTrailing_cons_final]
  simp [eqTrailing_nil]

theorem build_finalCount (d : ParsedDoc) :
    (build_document d).countP isFinalSect = 1 := by
  obtain ⟨k1, k2, k3⟩ := keywordsElems_facts d
  obtain ⟨ab1, ab2⟩ := authorBlock_noEq d.authors
  obtain ⟨s1, s2, s3, s4⟩ := renderSections_facts d.sections 0
  obtain ⟨r1, r2, r3⟩ := refParas_facts d.references 0
  unfold build_document
  simp [List.countP_append, List.countP_cons, isFinalSect, k3, ab2, s2, r3]

theorem build_getLast (d : ParsedDoc) :
    (build_document d).getLast? = some (.finalSect finalSectPr) := by
  unfold build_document
  rw [show Elem.para (titlePara d)
      :: authorBlock d.authors
      ++ Elem.breakPara preAbstractSectPr
      :: Elem.para (abstractPara d)
      :: keywordsElems d
      ++ (renderSections d.sections 0).1
      ++ Elem.para refsHeadPara
      :: refParas d.references 0
      ++ [Elem.finalSect finalSectPr]
    = (Elem.para (titlePara d)
        :: authorBlock d.authors
        ++ Elem.breakPara preAbstractSectPr
        :: Elem.para (abstractPara d)
        :: keywordsElems d
        ++ (renderSections d.sections 0).1
        ++ Elem.para refsHeadPara
        :: refParas d.references 0)
      ++ [Elem.finalSect finalSectPr] by simp]
  exact List.getLast?_concat _

end Md2Docx

namespace Md2Docx

/-! Arithmetic facts about the author-row chunking. -/

theorem specRowColsF_congr :
    ∀ f g n : Nat, n ≤ f → n ≤ g → specRowColsF f n = specRowColsF g n := by
  intro f
  induction f with
  | zero =>
    intro g n hf _
    have hn : n = 0 := Nat.le_zero.mp hf
    subst hn
    cases g with
    | zero => rfl
    | succ g => simp [specRowColsF]
  | succ f ih =>
    intro g n hf hg
    cases g with
    | zero =>
      have hn : n = 0 := Nat.le_zero.mp hg
      subst hn
      simp [specRowColsF]
    | succ g =>
      by_cases hn : n = 0
      · subst hn; simp [specRowColsF]
      · simp only [specRowColsF, if_neg hn]
        congr 1
        exact ih g (n - min n 4) (by omega) (by omega)

theorem specRowCols_eq (n : Nat) :
    specRowCols n = if n = 0 then [] else min n 4 :: specRowCols (n - min n 4) := by
  by_cases hn : n = 0
  · subst hn; rfl
  · obtain ⟨m, rfl⟩ : ∃ m, n = m + 1 := ⟨n - 1, by omega⟩
    rw [if_neg hn]
    show specRowColsF (m + 1) (m + 1) = _
    simp only [specRowColsF, if_neg hn]
    congr 1
    exact specRowColsF_congr m (m + 1 - min (m + 1) 4) (m + 1 - min (m + 1) 4)
      (by omega) (by omega)

theorem specRowCols_zero : specRowCols 0 = [] := rfl

theorem specRowCols_length (n : Nat) : (specRowCols n).length = (n + 3) / 4 := by
  induction n using Nat.strong_induction_on with
  | _ n ih =>
    rw [specRowCols_eq]
    by_cases hn : n = 0
    · subst hn; simp
    · rw [if_neg hn]
      simp only [List.length_cons]
      rw [ih (n - min n 4) (by omega)]
      by_cases h4 : n ≤ 4
      · have h0 : n - min n 4 = 0 := by omega
        rw [h0]
        have hn1 : 1 ≤ n := by omega
        interval_cases n <;> rfl
      · have h0 : n - min n 4 = n - 4 := by omega
        rw [h0]
        have hsplit : n + 3 = (n - 4 + 3) + 4 := by omega
        rw [hsplit, Nat.add_div_right _ (by norm_num)]

theorem chunksF_nil (f k : Nat) : chunksF f [] k = [] := by
  cases f <;> rfl

theorem chunks_map_length_4 :
    ∀ (f : Nat) (al : List Author), al.length ≤ f →
      (chunksF f al 4).map List.length = specRowCols al.length := by
  intro f
  induction f with
  | zero =>
    intro al h
    have : al = [] := List.length_eq_zero.mp (Nat.le_zero.mp h)
    subst this
    rfl
  | succ f ih =>
    intro al h
    cases al with
    | nil => rfl
    | cons a rest =>
      simp only [chunksF, List.map_cons]
      rw [ih ((a :: rest).drop 4)
        (by simp only [List.length_drop, List.length_cons] at h ⊢; omega)]
      rw [specRowCols_eq (a :: rest).length]
      rw [if_neg (by simp)]
      have hlen : ((a :: rest).take 4).length = min (a :: rest).length 4 := by
        simp [List.length_take]
        omega
      have hdrop : ((a :: rest).drop 4).length = (a :: rest).length - min (a :: rest).length 4 := by
        simp [List.length_drop]
        omega
      rw [hlen, hdrop]

theorem chunks_single (al : List Author) (h1 : 1 ≤ al.length) :
    chunksF al.length al al.length = [al] := by
  cases al with
  | nil => simp at h1
  | cons a rest =>
    simp only [chunksF]
    rw [List.take_length, List.drop_length, chunksF_nil]

end Md2Docx

namespace Md2Docx

/-- A two-author document used as the concrete input of the C1
counterexample. -/
def twoAuthorDoc : ParsedDoc :=
  ⟨"T".data, [⟨"A".data, []⟩, ⟨"B".data, []⟩], ["abs".data], [], [], []⟩

/-- The descriptor order claimed by the specification, instantiated for a
document with at least two authors: first a single-column title
descriptor, then the (nonempty) author-row descriptors, then a
two-column body descriptor, then the two-column terminal descriptor. -/
def c1ClaimedShape (d : ParsedDoc) : Prop :=
  ∃ t rows b term, t.cols = 1 ∧ rows ≠ [] ∧ b.cols = 2 ∧ term.cols = 2
    ∧ allSects (build_document d) = t :: (rows ++ [b, term])

/-- C1 (counterexample): for the two-author document the emitted stream
has only three descriptors — the author-row break, the single-column
break before the abstract, and the terminal descriptor — so the claimed
order (title descriptor first, then author rows, then a separate
two-column body descriptor, then the terminal) is impossible. -/
theorem region_break_order_counterexample : ¬ c1ClaimedShape twoAuthorDoc := by
  intro hcl
  obtain ⟨t, rows, b, term, ht, hrows, hb, hterm, heq⟩ := hcl
  have hlen : (allSects (build_document twoAuthorDoc)).length = 3 := by decide
  rw [heq] at hlen
  simp only [List.length_cons, List.length_append] at hlen
  exact hrows (List.length_eq_zero.mp (by omega))

/-- C1 (amended): the region descriptors of the emitted stream are, in
document order, the author-row descriptors (those of the author block,
present only for two or more authors), then the single-column descriptor
injected immediately before the abstract (which, under the output
format's semantics, closes the single-column front-matter region), then
the two-column continuous document-level descriptor; the terminal
descriptor is the unique trailing document-level descriptor and the last
element of the stream. -/
theorem region_break_order (d : ParsedDoc) :
    allSects (build_document d)
      = allSects (authorBlock d.authors) ++ [preAbstractSectPr, finalSectPr]
    ∧ (build_document d).countP isFinalSect = 1
    ∧ (build_document d).getLast? = some (.finalSect finalSectPr)
    ∧ preAbstractSectPr.cols = 1
    ∧ finalSectPr.cols = 2
    ∧ finalSectPr.typeContinuous = true :=
  ⟨build_allSects d, build_finalCount d, build_getLast d, rfl, rfl, rfl⟩

/-- A five-author document used as the concrete witness input for C2. -/
def fiveAuthorDoc : ParsedDoc :=
  ⟨"T".data,
   [⟨"A".data, []⟩, ⟨"B".data, []⟩, ⟨"C".data, []⟩, ⟨"D".data, []⟩, ⟨"E".data, []⟩],
   ["abs".data], [], [], []⟩

/-- C2: zero authors produce no author region boundary; one author
produces no boundary and plain centered name/affiliation paragraphs
instead; two or more authors produce `ceil(N/4)` author-row boundaries
whose column counts are `min(remaining, 4)` row by row, all continuous
with the 216-twip author gap. -/
theorem author_region_rows (d : ParsedDoc) :
    (d.authors.length = 0 → allSects (build_document d) = [preAbstractSectPr, finalSectPr])
    ∧ (d.authors.length = 1 →
        allSects (build_document d) = [preAbstractSectPr, finalSectPr]
        ∧ (∀ a, d.authors = [a] →
            authorBlock d.authors
              = Elem.para (make_paragraph [make_run a.name 11 false false false false false]
                  "center".data 0 40 none none none false (some 228) "auto".data [])
                :: a.lines.map (fun ln =>
                  Elem.para (make_paragraph [make_run ln 10 false true false false false]
                    "center".data 0 40 none none none false (some 228) "auto".data []))))
    ∧ (2 ≤ d.authors.length →
        allSects (build_document d)
          = allSects (authorBlock d.authors) ++ [preAbstractSectPr, finalSectPr]
        ∧ (allSects (authorBlock d.authors)).map SectPr.cols = specRowCols d.authors.length
        ∧ (allSects (authorBlock d.authors)).length = (d.authors.length + 3) / 4
        ∧ ∀ s ∈ allSects (authorBlock d.authors),
            s.typeContinuous = true ∧ s.colSpace = 216) := by
  refine ⟨?_, ?_, ?_⟩
  · intro h0
    have hnil : d.authors = [] := List.length_eq_zero.mp h0
    rw [build_allSects d, hnil]
    rfl
  · intro h1
    obtain ⟨a, ha⟩ : ∃ a, d.authors = [a] := by
      cases hd : d.authors with
      | nil => rw [hd] at h1; simp at h1
      | cons x t =>
        cases t with
        | nil => exact ⟨x, rfl⟩
        | cons y rr => rw [hd] at h1; simp at h1
    constructor
    · rw [build_allSects d, ha, authorBlock_sects_one a]
      rfl
    · intro a2 ha2
      rw [ha2]
      rfl
  · intro h2
    obtain ⟨a, b, r, habr⟩ : ∃ a b r, d.authors = a :: b :: r := by
      cases hd : d.authors with
      | nil => rw [hd] at h2; simp at h2
      | cons x t =>
        cases t with
        | nil => rw [hd] at h2; simp at h2
        | cons y rr => exact ⟨x, y, rr, rfl⟩
    have hcols : (allSects (authorBlock d.authors)).map SectPr.cols
        = specRowCols d.authors.length := by
      rw [habr, authorBlock_sects_two a b r, List.map_map]
      have hcomp : (SectPr.cols ∘ fun row => mkRowSectPr row.length)
          = (List.length : List Author → Nat) := by
        funext row
        rfl
      rw [hcomp]
      by_cases h4 : (a :: b :: r).length ≤ 4
      · have hmin : min (a :: b :: r).length 4 = (a :: b :: r).length := by omega
        unfold authorRows
        rw [hmin, chunks_single _ (by simp)]
        simp only [List.map_cons, List.map_nil]
        rw [specRowCols_eq, if_neg (by simp), hmin]
        simp [specRowCols_zero]
      · have hmin : min (a :: b :: r).length 4 = 4 := by omega
        unfold authorRows
        rw [hmin]
        exact chunks_map_length_4 (a :: b :: r).length _ le_rfl
    refine ⟨build_allSects d, hcols, ?_, ?_⟩
    · rw [← specRowCols_length, ← hcols, List.length_map]
    · intro s hs
      rw [habr, authorBlock_sects_two a b r] at hs
      obtain ⟨row, _, rfl⟩ := List.mem_map.mp hs
      exact ⟨rfl, rfl⟩

/-- Witness for C2 at the five-author document: two rows, of four and of
one column. -/
theorem author_region_rows_witness :
    2 ≤ fiveAuthorDoc.authors.length
    ∧ (allSects (authorBlock fiveAuthorDoc.authors)).map SectPr.cols = [4, 1] := by
  have h := (author_region_rows fiveAuthorDoc).2.2 (by decide)
  refine ⟨by decide, ?_⟩
  rw [h.2.1]
  decide

/-- C8: the trailing number runs of the equation paragraphs, in document
order across all sections, are exactly `(1)`, `(2)`, …: the counter
starts at 1, advances by one per equation item, and is never reset at a
section or subsection boundary. -/
theorem equation_numbering_global (d : ParsedDoc) :
    eqTrailing (build_document d)
      = (List.range' 1 (totalEq d)).map (fun k => '(' :: natToChars k ++ [')']) := by
  rw [build_eqTrailing d]
  obtain ⟨s1, s2, s3, s4⟩ := renderSections_facts d.sections 0
  rw [s4]
  rfl

end Md2Docx

namespace Md2Docx

/-! Shape of the runs produced by `parse_math_text`: every run is built
from the base properties via `mkTR`, so weight, slant and size are those
of the base style. -/

theorem pmtFlush_shape (p : RProps) (pend : List Char) (r : RunE)
    (hr : r ∈ pmtFlush p pend) : ∃ text sub sup, r = mkTR text p sub sup := by
  unfold pmtFlush at hr
  split at hr
  · simp at hr
  · rw [List.mem_singleton] at hr
    exact ⟨_, _, _, hr⟩

set_option maxHeartbeats 1600000 in
theorem pmtScanF_shape (p : RProps) :
    ∀ (f : Nat) (l pend : List Char) (r : RunE), r ∈ pmtScanF p f l pend →
      ∃ text sub sup, r = mkTR text p sub sup := by
  intro f
  induction f with
  | zero =>
    intro l pend r hr
    exact pmtFlush_shape p _ r hr
  | succ f ih =>
    intro l pend r hr
    cases l with
    | nil => exact pmtFlush_shape p _ r hr
    | cons c rest =>
      unfold pmtScanF at hr
      repeat' split at hr
      all_goals
        first
          | exact ih _ _ _ hr
          | exact pmtFlush_shape p _ r hr
          | (rcases List.mem_append.mp hr with h | h
             · exact pmtFlush_shape p _ r h
             · rcases List.mem_cons.mp h with h2 | h2
               · exact ⟨_, _, _, h2⟩
               · exact ih _ _ _ h2)

theorem parse_math_text_runs (text : List Char) (p : RProps) :
    ∀ r ∈ parse_math_text text p,
      ∃ t : TextRun, r = .textRun t
        ∧ t.bold = p.bold ∧ t.italic = p.italic ∧ t.size = p.size := by
  have key : ∀ (tx : List Char) (sub sup : Bool),
      ∃ t : TextRun, mkTR tx p sub sup = .textRun t
        ∧ t.bold = p.bold ∧ t.italic = p.italic ∧ t.size = p.size :=
    fun tx sub sup => ⟨_, rfl, rfl, rfl, rfl⟩
  intro r hr
  unfold parse_math_text at hr
  split at hr
  · rw [List.mem_singleton] at hr
    rw [hr]
    exact key _ _ _
  · obtain ⟨tx, sub, sup, rfl⟩ := pmtScanF_shape p _ _ _ r hr
    exact key _ _ _

/-- The concrete document used by the C4 counterexample. -/
def abstractDocCx : ParsedDoc :=
  ⟨"T".data, [], ["The abstract body.".data], [], [], []⟩

/-- The i-th run of a paragraph, when it is a text run. -/
def runAt (p : Para) (i : Nat) : Option TextRun :=
  match p.runs[i]? with
  | some (.textRun t) => some t
  | _ => none

/-- C4 (counterexample): in the abstract paragraph of a concrete
document, the second lead-in run — the em dash — is bold but NOT italic
(its italic field is `false`), contradicting the claim that both lead-in
runs are styled bold and italic. -/
theorem abstract_emdash_not_italic :
    runAt (abstractPara abstractDocCx) 1
      = some ⟨[EMDASH], 9, true, false, false, false, false, FONT⟩ := by
  decide

/-- C4 (amended): for every document the abstract is emitted as one
justified paragraph placed immediately after the injected break, whose
runs are: a bold-italic `Abstract` run, a bold (not italic) em-dash run,
then the abstract body split into bold 9pt runs. -/
theorem abstract_paragraph_structure (d : ParsedDoc) :
    (abstractPara d).jc = "both".data
    ∧ (abstractPara d).runs
        = make_run "Abstract".data 9 true true false false false
          :: make_run [EMDASH] 9 true false false false false
          :: parse_math_text (strip_markdown (joinSpace d.abstract)) ⟨9, true, false, FONT⟩
    ∧ (∀ r ∈ (abstractPara d).runs, ∃ t : TextRun, r = .textRun t ∧ t.bold = true)
    ∧ build_document d
        = (Elem.para (titlePara d) :: authorBlock d.authors ++ [Elem.breakPara preAbstractSectPr])
          ++ Elem.para (abstractPara d)
          :: (keywordsElems d ++ ((renderSections d.sections 0).1
              ++ (Elem.para refsHeadPara :: refParas d.references 0
                  ++ [Elem.finalSect finalSectPr]))) := by
  refine ⟨rfl, rfl, ?_, ?_⟩
  · intro r hr
    have hruns : (abstractPara d).runs
        = make_run "Abstract".data 9 true true false false false
          :: make_run [EMDASH] 9 true false false false false
          :: parse_math_text (strip_markdown (joinSpace d.abstract)) ⟨9, true, false, FONT⟩ := rfl
    rw [hruns] at hr
    rcases List.mem_cons.mp hr with h | h
    · exact ⟨⟨"Abstract".data, 9, true, true, false, false, false, FONT⟩, by rw [h]; rfl, rfl⟩
    · rcases List.mem_cons.mp h with h2 | h2
      · exact ⟨⟨[EMDASH], 9, true, false, false, false, false, FONT⟩, by rw [h2]; rfl, rfl⟩
      · obtain ⟨t, ht, hb, _, _⟩ :=
          parse_math_text_runs (strip_markdown (joinSpace d.abstract)) ⟨9, true, false, FONT⟩ r h2
        exact ⟨t, ht, hb⟩
  · simp [build_document]

end Md2Docx

namespace Md2Docx

/-- Witness for the amended C4, instantiating the all-runs-bold clause at
the concrete document's first abstract run. -/
theorem abstract_paragraph_structure_witness :
    ∃ t : TextRun,
      make_run "Abstract".data 9 true true false false false = RunE.textRun t
      ∧ t.bold = true :=
  (abstract_paragraph_structure abstractDocCx).2.2.1
    (make_run "Abstract".data 9 true true false false false) (by decide)

end Md2Docx
